import Mathlib

/-!
Verification of the contest-lens analysis core (`src/analyze.py`).

This file gives a shallow embedding of the rating-band technique-frequency
analysis: the static tag-to-category table (`TAG_TO_CATEGORY`), the band
aggregator (`analyze_band`), the data part of the roadmap derivation
(`display_roadmap_from_data`), and the exporter (`export_real_data`).
Python dicts used as counters are embedded as insertion-ordered association
lists (`bump` models `defaultdict(int)` incrementing), Python's stable
`sorted(..., reverse=True)` is embedded as `List.insertionSort` with a
greater-or-equal relation on the sort key, and `round(x, 4)` on the
frequency is embedded as exact round-half-to-even on rationals
(`rndHalfEvenDiv`).  Theorems about the embedded definitions follow the
definitions.
-/

/-- An item loaded by `load_problems`: one row of the problems table, with a
non-null integer rating and a list of raw tag strings. -/
structure Problem where
  contest_id : Nat
  index : String
  name : String
  rating : Int
  tags : List String
  solved_count : Nat
deriving DecidableEq

/-- Per-category statistics inside one band analysis: the `count` and
`frequency` fields of `analyze_band`'s `categories` values. -/
structure CategoryStat where
  count : Nat
  frequency : ℚ
deriving DecidableEq

/-- The result dict of `analyze_band`.  `raw_tags` is optional because the
empty-band early return `{"total": 0, "categories": {}}` carries no
`raw_tags` key at all. -/
structure BandAnalysis where
  total : Nat
  categories : List (String × CategoryStat)
  raw_tags : Option (List (String × Nat))
deriving DecidableEq

/-- The `RATING_BANDS` constant: `(lo, hi, label)` triples. -/
def RATING_BANDS : List (Int × Int × String) :=
  [(800, 1000, "Newbie → Pupil"),
   (1000, 1200, "Pupil"),
   (1200, 1400, "Pupil → Specialist"),
   (1400, 1600, "Specialist → Expert"),
   (1600, 1900, "Expert")]

/-- The static `TAG_TO_CATEGORY` dict.  The value type is `Option String`
because the sentinel entry maps `"*special"` to Python `None` (drop). -/
def TAG_TO_CATEGORY : List (String × Option String) :=
  [("implementation", some "Implementation"),
   ("brute force", some "Brute Force"),
   ("greedy", some "Greedy"),
   ("sortings", some "Sorting"),
   ("math", some "Math"),
   ("number theory", some "Number Theory"),
   ("combinatorics", some "Combinatorics"),
   ("geometry", some "Geometry"),
   ("dp", some "Dynamic Programming"),
   ("binary search", some "Binary Search"),
   ("two pointers", some "Two Pointers"),
   ("data structures", some "Data Structures"),
   ("strings", some "Strings"),
   ("string suffix structures", some "Strings (Advanced)"),
   ("hashing", some "Hashing"),
   ("graphs", some "Graphs"),
   ("dfs and similar", some "DFS / BFS"),
   ("shortest paths", some "Shortest Paths"),
   ("trees", some "Trees"),
   ("constructive algorithms", some "Constructive Algorithms"),
   ("bitmasks", some "Bit Manipulation"),
   ("divide and conquer", some "Divide & Conquer"),
   ("games", some "Game Theory"),
   ("flows", some "Flows & Matching"),
   ("graph matchings", some "Flows & Matching"),
   ("interactive", some "Interactive"),
   ("probabilities", some "Probability"),
   ("matrices", some "Matrices"),
   ("fft", some "FFT"),
   ("ternary search", some "Ternary Search"),
   ("expression parsing", some "Expression Parsing"),
   ("meet-in-the-middle", some "Meet in the Middle"),
   ("2-sat", some "2-SAT"),
   ("chinese remainder theorem", some "Chinese Remainder Theorem"),
   ("schedules", some "Scheduling"),
   ("*special", none)]

/-- `TAG_TO_CATEGORY.get(tag, tag)`: the table value when the tag is a key
(`none` models Python `None` for the sentinel), otherwise the raw tag
itself. -/
def tagToCategoryGet (tag : String) : Option String :=
  match TAG_TO_CATEGORY.lookup tag with
  | some v => v
  | none => some tag

/-- The category a tag effectively contributes to in `analyze_band`:
`tagToCategoryGet` restricted to truthy results (Python drops both `None`
and the empty string by the `if category` test). -/
def effCat (tag : String) : Option String :=
  match tagToCategoryGet tag with
  | some c => if c = "" then none else some c
  | none => none

/-- Whether some tag in `tags` effectively contributes category `k`. -/
def touchesTags (tags : List String) (k : String) : Bool :=
  tags.any (fun t => effCat t == some k)

/-- One counter increment of a `defaultdict(int)`, keeping dict insertion
order: bump the existing entry, or append a fresh entry with value 1. -/
def bump : List (String × Nat) → String → List (String × Nat)
  | [], k => [(k, 1)]
  | (a, v) :: rest, k =>
      if a = k then (a, v + 1) :: rest else (a, v) :: bump rest k

/-- Total count recorded for key `k` in a counter list (the sum of all
entries with that key; keys are in fact unique). -/
def countOf (l : List (String × Nat)) (k : String) : Nat :=
  ((l.filter (fun x => x.1 == k)).map (fun x => x.2)).sum

/-- The inner tag loop of `analyze_band` for one problem: every tag bumps
its raw counter; a tag's category is bumped only when it is truthy and not
yet in this problem's `seen_categories`.  Returns the updated
`(category_counts, raw_tag_counts)`. -/
def procProblemTags (cc rc : List (String × Nat)) (seen : List String) :
    List String → List (String × Nat) × List (String × Nat)
  | [] => (cc, rc)
  | tag :: rest =>
    let rc2 := bump rc tag
    match tagToCategoryGet tag with
    | some c =>
        if c ≠ "" ∧ c ∉ seen then
          procProblemTags (bump cc c) rc2 (c :: seen) rest
        else
          procProblemTags cc rc2 seen rest
    | none => procProblemTags cc rc2 seen rest

/-- The outer problem loop of `analyze_band`: each problem starts with an
empty `seen_categories` set. -/
def procProblems (cc rc : List (String × Nat)) :
    List Problem → List (String × Nat) × List (String × Nat)
  | [] => (cc, rc)
  | p :: ps =>
    let r := procProblemTags cc rc [] p.tags
    procProblems r.1 r.2 ps

/-- Band membership test `lo <= p["rating"] < hi`. -/
def inBand (lo hi : Int) (p : Problem) : Bool :=
  decide (lo ≤ p.rating) && decide (p.rating < hi)

/-- Round-half-to-even of `n / d` on naturals (the integer nearest to
`n / d`, ties to the even quotient): the exact-arithmetic model of Python's
`round`. -/
def rndHalfEvenDiv (n d : Nat) : Nat :=
  if d < 2 * (n % d) then n / d + 1
  else if 2 * (n % d) < d then n / d
  else if n / d % 2 = 0 then n / d else n / d + 1

/-- `round(count / total, 4)` as an exact rational. -/
def roundFreq (count total : Nat) : ℚ :=
  (rndHalfEvenDiv (count * 10000) total : ℚ) / 10000

/-- Descending-count order on counter entries: the key of
`sorted(counts.items(), key=lambda x: x[1], reverse=True)`. -/
def countGE (a b : String × Nat) : Prop := b.2 ≤ a.2

instance : DecidableRel countGE := fun a b => Nat.decLe b.2 a.2

instance : IsTotal (String × Nat) countGE := ⟨fun a b => Nat.le_total b.2 a.2⟩

instance : IsTrans (String × Nat) countGE := ⟨fun _ _ _ h1 h2 => le_trans h2 h1⟩

/-- Descending-frequency order on category-table entries. -/
def freqGE (a b : String × CategoryStat) : Prop :=
  b.2.frequency ≤ a.2.frequency

/-- Descending-growth order on `(cat, freq, growth)` roadmap entries: the
key of `new_or_growing.sort(key=lambda x: x[2], reverse=True)`. -/
def growthGE (a b : String × ℚ × ℚ) : Prop := b.2.2 ≤ a.2.2

instance : DecidableRel growthGE := fun a b => Rat.instDecidableLe b.2.2 a.2.2

instance : IsTotal (String × ℚ × ℚ) growthGE := ⟨fun a b => le_total b.2.2 a.2.2⟩

instance : IsTrans (String × ℚ × ℚ) growthGE := ⟨fun _ _ _ h1 h2 => le_trans h2 h1⟩

/-- `analyze_band(problems, lo, hi)`: filter the band, early-return on an
empty band (note: no `raw_tags` key in that case), otherwise count
categories (deduplicated per problem) and raw tags (every occurrence) and
emit both tables sorted by descending count, categories carrying the
rounded frequency. -/
def analyze_band (problems : List Problem) (lo hi : Int) : BandAnalysis :=
  let band_problems := problems.filter (inBand lo hi)
  let total := band_problems.length
  if total = 0 then { total := 0, categories := [], raw_tags := none }
  else
    let counts := procProblems [] [] band_problems
    { total := total
      categories := (List.insertionSort countGE counts.1).map
        (fun x => (x.1, { count := x.2, frequency := roundFreq x.2 total }))
      raw_tags := some (List.insertionSort countGE counts.2) }

/-- Total category count recorded for key `k` in a category table. -/
def catCountOf (l : List (String × CategoryStat)) (k : String) : Nat :=
  ((l.filter (fun x => x.1 == k)).map (fun x => x.2.count)).sum

/-- Raw-tag count recorded for `t` in a band analysis (0 when the analysis
carries no raw-tag table). -/
def rawCountOf (a : BandAnalysis) (t : String) : Nat :=
  countOf (a.raw_tags.getD []) t

/-- The `top_techs` list of `display_roadmap_from_data`: categories of the
band with frequency at least 0.10, in table order. -/
def topTechs (a : BandAnalysis) : List (String × CategoryStat) :=
  a.categories.filter (fun x => decide ((1 : ℚ) / 10 ≤ x.2.frequency))

/-- `prev["categories"].get(cat, {}).get("frequency", 0)`. -/
def prevFreq (prev : BandAnalysis) (cat : String) : ℚ :=
  match prev.categories.lookup cat with
  | some s => s.frequency
  | none => 0

/-- The `new_or_growing` list for a band with predecessor `prev`: each top
technique whose growth over the previous band is at least 0.03, or whose
previous frequency is below 0.05 while the current one is at least 0.08,
as a `(category, frequency, growth)` triple in `top_techs` order. -/
def newOrGrowing (prev cur : BandAnalysis) : List (String × ℚ × ℚ) :=
  (topTechs cur).filterMap (fun x =>
    let pf := prevFreq prev x.1
    let growth := x.2.frequency - pf
    if (3 : ℚ) / 100 ≤ growth ∨ (pf < 5 / 100 ∧ (8 : ℚ) / 100 ≤ x.2.frequency)
    then some (x.1, x.2.frequency, growth) else none)

/-- The displayed new-or-growing list for a band `i > 0`: `new_or_growing`
sorted by descending growth, truncated to the first 6. -/
def roadmapNewGrowing (prev cur : BandAnalysis) : List (String × ℚ × ℚ) :=
  (List.insertionSort growthGE (newOrGrowing prev cur)).take 6

/-- The displayed roadmap entry for the first band: `top_techs[:6]`. -/
def roadmapFirstBand (a : BandAnalysis) : List (String × CategoryStat) :=
  (topTechs a).take 6

/-- One `techniques` value in the exported JSON. -/
structure TechEntry where
  frequency : ℚ
  problem_count : Nat
deriving DecidableEq

/-- One band object in the exported JSON. -/
structure BandExport where
  label : String
  total_problems : Nat
  techniques : List (String × TechEntry)
deriving DecidableEq

/-- The JSON key `f"{lo}-{hi}"` of one band. -/
def bandKey (lo hi : Int) : String := toString lo ++ "-" ++ toString hi

/-- `export_real_data`: serialize an ordered list of (band triple,
analysis) pairs into the nested band-key mapping. -/
def export_real_data (bands : List ((Int × Int × String) × BandAnalysis)) :
    List (String × BandExport) :=
  bands.map (fun x =>
    (bandKey x.1.1 x.1.2.1,
     { label := x.1.2.2
       total_problems := x.2.total
       techniques := x.2.categories.map
         (fun y => (y.1, { frequency := y.2.frequency, problem_count := y.2.count })) }))

/-- A parser for the `techniques` object of one exported band, recovering a
category table from it. -/
def parseTechniques (l : List (String × TechEntry)) : List (String × CategoryStat) :=
  l.map (fun y => (y.1, { count := y.2.problem_count, frequency := y.2.frequency }))


/-- The first item of the spec example scenario: rating 850, one tag. -/
def demoA : Problem :=
  { contest_id := 1, index := "A", name := "easy", rating := 850,
    tags := ["implementation"], solved_count := 100 }

/-- The second item of the spec example scenario: rating 900, two tags. -/
def demoB : Problem :=
  { contest_id := 1, index := "B", name := "medium", rating := 900,
    tags := ["implementation", "math"], solved_count := 50 }

/-- An item with two distinct raw tags that normalize to the same category
("flows" and "graph matchings" both map to "Flows & Matching"). -/
def demoFlows : Problem :=
  { contest_id := 2, index := "C", name := "flow", rating := 850,
    tags := ["flows", "graph matchings"], solved_count := 10 }

/-- Items carrying the sentinel tag, one of them twice across the band. -/
def specialProblems : List Problem :=
  [{ contest_id := 3, index := "D", name := "d", rating := 900,
     tags := ["*special", "implementation"], solved_count := 5 },
   { contest_id := 3, index := "E", name := "e", rating := 950,
     tags := ["*special"], solved_count := 5 }]

/-- A hypothetical previous-band analysis holding category "X" at
frequency 0.04, as in the growth-heuristic scenario of the spec. -/
def prevBandX : BandAnalysis :=
  { total := 100, categories := [("X", { count := 4, frequency := 4/100 })],
    raw_tags := some [] }

/-- A hypothetical current-band analysis holding category "X" at
frequency 0.09, as in the growth-heuristic scenario of the spec. -/
def curBandX9 : BandAnalysis :=
  { total := 100, categories := [("X", { count := 9, frequency := 9/100 })],
    raw_tags := some [] }

/-- A current-band analysis holding category "X" at frequency 0.10, the
least frequency that passes the top-technique gate. -/
def curBandX10 : BandAnalysis :=
  { total := 100, categories := [("X", { count := 10, frequency := 1/10 })],
    raw_tags := some [] }

/-- A previous-band analysis with "Graphs" at frequency 0.05. -/
def c3prev : BandAnalysis :=
  { total := 50, categories := [("Graphs", { count := 2, frequency := 5/100 }),
      ("Math", { count := 20, frequency := 40/100 })],
    raw_tags := some [] }

/-- A current-band analysis with "Graphs" grown to frequency 0.15. -/
def c3cur : BandAnalysis :=
  { total := 60, categories := [("Math", { count := 21, frequency := 35/100 }),
      ("Graphs", { count := 9, frequency := 15/100 })],
    raw_tags := some [] }

/-! ### Counter lemmas -/

theorem countOf_nil (k : String) : countOf [] k = 0 := rfl

theorem countOf_cons (a : String) (v : Nat) (l : List (String × Nat)) (k : String) :
    countOf ((a, v) :: l) k = (if a = k then v else 0) + countOf l k := by
  by_cases h : a = k <;> simp [countOf, List.filter_cons, h]

theorem countOf_bump_self (l : List (String × Nat)) (k : String) :
    countOf (bump l k) k = countOf l k + 1 := by
  induction l with
  | nil => simp [bump, countOf_nil, countOf_cons]
  | cons x xs ih =>
    obtain ⟨a, v⟩ := x
    by_cases hak : a = k
    · have hb : bump ((a, v) :: xs) k = (a, v + 1) :: xs := by simp [bump, hak]
      rw [hb, countOf_cons, countOf_cons, if_pos hak, if_pos hak]
      omega
    · have hb : bump ((a, v) :: xs) k = (a, v) :: bump xs k := by simp [bump, hak]
      rw [hb, countOf_cons, countOf_cons, ih]
      omega

theorem countOf_bump_ne {j k : String} (hjk : j ≠ k) (l : List (String × Nat)) :
    countOf (bump l k) j = countOf l j := by
  induction l with
  | nil => simp [bump, countOf_nil, countOf_cons, Ne.symm hjk]
  | cons x xs ih =>
    obtain ⟨a, v⟩ := x
    by_cases hak : a = k
    · have hb : bump ((a, v) :: xs) k = (a, v + 1) :: xs := by simp [bump, hak]
      have haj : a ≠ j := fun h => hjk (h.symm.trans hak)
      rw [hb, countOf_cons, countOf_cons, if_neg haj, if_neg haj]
    · have hb : bump ((a, v) :: xs) k = (a, v) :: bump xs k := by simp [bump, hak]
      rw [hb, countOf_cons, countOf_cons, ih]

theorem countOf_bump (l : List (String × Nat)) (k j : String) :
    countOf (bump l k) j = countOf l j + (if j = k then 1 else 0) := by
  by_cases h : j = k
  · subst h; simp [countOf_bump_self]
  · simp [countOf_bump_ne h, h]

theorem mem_le_countOf {l : List (String × Nat)} {k : String} {v : Nat}
    (h : (k, v) ∈ l) : v ≤ countOf l k := by
  induction l with
  | nil => simp at h
  | cons x xs ih =>
    obtain ⟨a, w⟩ := x
    rcases List.mem_cons.mp h with h1 | h1
    · obtain ⟨rfl, rfl⟩ := Prod.mk.injEq .. ▸ h1
      simp [countOf_cons]
    · have := ih h1
      by_cases hak : a = k <;> simp [countOf_cons, hak] <;> omega

theorem countOf_perm {l1 l2 : List (String × Nat)} (h : l1.Perm l2) (k : String) :
    countOf l1 k = countOf l2 k :=
  ((h.filter _).map _).sum_eq

theorem values_pos_bump {l : List (String × Nat)} (h : ∀ x ∈ l, 0 < x.2)
    (k : String) : ∀ x ∈ bump l k, 0 < x.2 := by
  induction l with
  | nil => simp [bump]
  | cons y ys ih =>
    obtain ⟨a, v⟩ := y
    by_cases hak : a = k
    · subst hak
      simp only [bump, if_pos rfl]
      intro x hx
      rcases List.mem_cons.mp hx with rfl | hx
      · simp
      · exact h x (List.mem_cons_of_mem _ hx)
    · simp only [bump, if_neg hak]
      intro x hx
      rcases List.mem_cons.mp hx with rfl | hx
      · exact h _ (List.mem_cons_self _ _)
      · exact ih (fun y hy => h y (List.mem_cons_of_mem _ hy)) x hx

/-! ### Lookup and normalization lemmas -/

theorem lookup_mem {α β : Type} [BEq α] [LawfulBEq α] {l : List (α × β)} {a : α} {b : β}
    (h : l.lookup a = some b) : (a, b) ∈ l := by
  induction l with
  | nil => simp [List.lookup] at h
  | cons x xs ih =>
    obtain ⟨k, v⟩ := x
    rw [List.lookup_cons] at h
    cases hab : a == k with
    | true =>
      simp only [hab] at h
      obtain rfl := Option.some.inj h
      obtain rfl : a = k := eq_of_beq hab
      exact List.mem_cons_self _ _
    | false =>
      simp only [hab] at h
      exact List.mem_cons_of_mem _ (ih h)

theorem effCat_eq_some {tag c : String} (h : effCat tag = some c) :
    c ≠ "" ∧ (TAG_TO_CATEGORY.lookup tag = some (some c) ∨
      (TAG_TO_CATEGORY.lookup tag = none ∧ c = tag)) := by
  unfold effCat tagToCategoryGet at h
  rcases hl : TAG_TO_CATEGORY.lookup tag with _ | v
  · simp only [hl] at h
    split at h
    · cases h
    · rename_i hne
      obtain rfl := Option.some.inj h
      exact ⟨hne, Or.inr ⟨rfl, rfl⟩⟩
  · simp only [hl] at h
    rcases v with _ | c0
    · cases h
    · simp only at h
      split at h
      · cases h
      · rename_i hne
        obtain rfl := Option.some.inj h
        exact ⟨hne, Or.inl rfl⟩

theorem table_values_safe :
    ∀ x ∈ TAG_TO_CATEGORY, x.2 ≠ some "*special" ∧ x.2 ≠ some "" := by
  decide

theorem effCat_ne_special (tag : String) : effCat tag ≠ some "*special" := by
  intro h
  obtain ⟨hne, hcase⟩ := effCat_eq_some h
  rcases hcase with hl | ⟨hl, rfl⟩
  · exact (table_values_safe _ (lookup_mem hl)).1 rfl
  · rw [show TAG_TO_CATEGORY.lookup "*special" = some none from by decide] at hl
    cases hl

theorem effCat_ne_empty (tag : String) : effCat tag ≠ some "" := by
  intro h
  exact (effCat_eq_some h).1 rfl

/-! ### Rounding lemmas -/

theorem rndHalfEvenDiv_le_succ (n d : Nat) : rndHalfEvenDiv n d ≤ n / d + 1 := by
  unfold rndHalfEvenDiv; split_ifs <;> omega

theorem div_le_rndHalfEvenDiv (n d : Nat) : n / d ≤ rndHalfEvenDiv n d := by
  unfold rndHalfEvenDiv; split_ifs <;> omega

theorem rndHalfEvenDiv_mono {d : Nat} {n m : Nat} (h : n ≤ m) :
    rndHalfEvenDiv n d ≤ rndHalfEvenDiv m d := by
  have hq : n / d ≤ m / d := Nat.div_le_div_right h
  rcases Nat.lt_or_ge (n / d) (m / d) with hlt | hge
  · calc rndHalfEvenDiv n d ≤ n / d + 1 := rndHalfEvenDiv_le_succ n d
      _ ≤ m / d := hlt
      _ ≤ rndHalfEvenDiv m d := div_le_rndHalfEvenDiv m d
  · have heq : n / d = m / d := le_antisymm hq hge
    have hr : n % d ≤ m % d := by
      have e1 := Nat.div_add_mod n d
      have e2 := Nat.div_add_mod m d
      rw [heq] at e1
      generalize d * (m / d) = A at e1 e2
      omega
    unfold rndHalfEvenDiv
    rw [heq]
    generalize m / d = q at *
    generalize n % d = r1 at *
    generalize m % d = r2 at *
    split_ifs <;> omega

theorem rndHalfEvenDiv_self_mul (d : Nat) (hd : 0 < d) :
    rndHalfEvenDiv (d * 10000) d = 10000 := by
  unfold rndHalfEvenDiv
  rw [Nat.mul_mod_right, Nat.mul_div_cancel_left _ hd]
  have h0 : 0 < d := hd
  split_ifs <;> omega

theorem rndHalfEvenDiv_le_bound {c t : Nat} (ht : 0 < t) (h : c ≤ t) :
    rndHalfEvenDiv (c * 10000) t ≤ 10000 := by
  rcases eq_or_lt_of_le h with rfl | hlt
  · rw [show c * 10000 = c * 10000 from rfl]
    exact le_of_eq (rndHalfEvenDiv_self_mul c ht)
  · have hq : c * 10000 / t < 10000 := by
      rw [Nat.div_lt_iff_lt_mul ht]
      omega
    calc rndHalfEvenDiv (c * 10000) t ≤ c * 10000 / t + 1 := rndHalfEvenDiv_le_succ _ _
      _ ≤ 10000 := hq

theorem roundFreq_nonneg (c t : Nat) : 0 ≤ roundFreq c t := by
  unfold roundFreq
  positivity

theorem roundFreq_le_one {c t : Nat} (ht : 0 < t) (h : c ≤ t) : roundFreq c t ≤ 1 := by
  unfold roundFreq
  rw [div_le_one (by norm_num)]
  exact_mod_cast Nat.cast_le.mpr (rndHalfEvenDiv_le_bound ht h)

theorem roundFreq_mono {c1 c2 t : Nat} (h : c1 ≤ c2) : roundFreq c1 t ≤ roundFreq c2 t := by
  unfold roundFreq
  apply div_le_div_of_nonneg_right ?_ (by norm_num)
  · exact_mod_cast Nat.cast_le.mpr (rndHalfEvenDiv_mono (Nat.mul_le_mul_right 10000 h))

/-! ### Loop characterization lemmas -/

theorem touchesTags_nil (k : String) : touchesTags [] k = false := rfl

theorem touchesTags_cons (tag : String) (rest : List String) (k : String) :
    touchesTags (tag :: rest) k = ((effCat tag == some k) || touchesTags rest k) := by
  simp [touchesTags]

theorem effCat_of_get_none {tag : String} (h : tagToCategoryGet tag = none) :
    effCat tag = none := by
  simp [effCat, h]

theorem effCat_of_get_some {tag c : String} (h : tagToCategoryGet tag = some c) :
    effCat tag = if c = "" then none else some c := by
  simp [effCat, h]

theorem procProblemTags_cat (tags : List String) :
    ∀ (cc rc : List (String × Nat)) (seen : List String) (k : String),
      countOf (procProblemTags cc rc seen tags).1 k
        = countOf cc k + (if k ∉ seen ∧ touchesTags tags k = true then 1 else 0) := by
  induction tags with
  | nil =>
    intro cc rc seen k
    simp [procProblemTags, touchesTags_nil]
  | cons tag rest ih =>
    intro cc rc seen k
    rcases hcat : tagToCategoryGet tag with _ | c
    · have he : effCat tag = none := effCat_of_get_none hcat
      simp only [procProblemTags, hcat]
      rw [ih, touchesTags_cons, he]
      simp
    · have he := effCat_of_get_some hcat
      simp only [procProblemTags, hcat]
      by_cases hcond : c ≠ "" ∧ c ∉ seen
      · rw [if_pos hcond, ih, touchesTags_cons, he, if_neg hcond.1]
        by_cases hkc : k = c
        · subst hkc
          rw [countOf_bump_self]
          have h1 : ¬ (k ∉ (k :: seen) ∧ touchesTags rest k = true) := by simp
          rw [if_neg h1]
          have h2 : k ∉ seen ∧ ((some k == some k) || touchesTags rest k) = true :=
            ⟨hcond.2, by simp⟩
          rw [if_pos h2]
        · rw [countOf_bump_ne hkc]
          have e1 : (k ∉ (c :: seen) ∧ touchesTags rest k = true)
              ↔ (k ∉ seen ∧ ((some c == some k) || touchesTags rest k) = true) := by
            have hb : (some c == some k) = false := by
              simp [Ne.symm hkc]
            rw [hb]
            simp [List.mem_cons, hkc]
          rw [if_congr e1 rfl rfl]
      · rw [if_neg hcond, ih, touchesTags_cons, he]
        by_cases hce : c = ""
        · simp [hce]
        · rw [if_neg hce]
          have hcs : c ∈ seen := by
            rcases not_and_or.mp hcond with h | h
            · exact absurd hce (by simpa using h)
            · simpa using h
          by_cases hkc : k = c
          · subst hkc
            simp [hcs]
          · have hb : (some c == some k) = false := by simp [Ne.symm hkc]
            rw [hb]
            simp

theorem procProblemTags_raw (tags : List String) :
    ∀ (cc rc : List (String × Nat)) (seen : List String) (t : String),
      countOf (procProblemTags cc rc seen tags).2 t = countOf rc t + tags.count t := by
  induction tags with
  | nil =>
    intro cc rc seen t
    simp [procProblemTags]
  | cons tag rest ih =>
    intro cc rc seen t
    have hc : (tag :: rest).count t = rest.count t + (if (tag == t) = true then 1 else 0) :=
      List.count_cons t tag rest
    have hif : (if t = tag then (1 : Nat) else 0) = (if (tag == t) = true then 1 else 0) := by
      by_cases h : t = tag
      · simp [h]
      · simp [h, Ne.symm h]
    rcases hcat : tagToCategoryGet tag with _ | c
    · simp only [procProblemTags, hcat]
      rw [ih, countOf_bump, hc, hif]
      omega
    · simp only [procProblemTags, hcat]
      by_cases hcond : c ≠ "" ∧ c ∉ seen
      · rw [if_pos hcond, ih, countOf_bump, hc, hif]
        omega
      · rw [if_neg hcond, ih, countOf_bump, hc, hif]
        omega

theorem procProblemTags_pos (tags : List String) :
    ∀ (cc rc : List (String × Nat)) (seen : List String),
      (∀ x ∈ cc, 0 < x.2) → ∀ x ∈ (procProblemTags cc rc seen tags).1, 0 < x.2 := by
  induction tags with
  | nil =>
    intro cc rc seen h
    simpa [procProblemTags] using h
  | cons tag rest ih =>
    intro cc rc seen h
    rcases hcat : tagToCategoryGet tag with _ | c
    · simp only [procProblemTags, hcat]
      exact ih _ _ _ h
    · simp only [procProblemTags, hcat]
      by_cases hcond : c ≠ "" ∧ c ∉ seen
      · rw [if_pos hcond]
        exact ih _ _ _ (values_pos_bump h c)
      · rw [if_neg hcond]
        exact ih _ _ _ h

theorem procProblems_cat (ps : List Problem) :
    ∀ (cc rc : List (String × Nat)) (k : String),
      countOf (procProblems cc rc ps).1 k
        = countOf cc k + (ps.filter (fun p => touchesTags p.tags k)).length := by
  induction ps with
  | nil =>
    intro cc rc k
    simp [procProblems]
  | cons p ps ih =>
    intro cc rc k
    simp only [procProblems]
    rw [ih, procProblemTags_cat, List.filter_cons]
    by_cases ht : touchesTags p.tags k = true
    · simp only [ht, if_true, List.length_cons]
      have h2 : (if k ∉ ([] : List String) ∧ True then (1 : Nat) else 0) = 1 := by simp
      rw [h2]
      omega
    · simp only [ht, if_false, Bool.false_eq_true]
      have h2 : (if k ∉ ([] : List String) ∧ False then (1 : Nat) else 0) = 0 := by simp
      rw [h2]
      omega

theorem procProblems_raw (ps : List Problem) :
    ∀ (cc rc : List (String × Nat)) (t : String),
      countOf (procProblems cc rc ps).2 t
        = countOf rc t + (ps.map (fun p => p.tags.count t)).sum := by
  induction ps with
  | nil =>
    intro cc rc t
    simp [procProblems]
  | cons p ps ih =>
    intro cc rc t
    simp only [procProblems]
    rw [ih, procProblemTags_raw]
    simp only [List.map_cons, List.sum_cons]
    omega

theorem procProblems_pos (ps : List Problem) :
    ∀ (cc rc : List (String × Nat)),
      (∀ x ∈ cc, 0 < x.2) → ∀ x ∈ (procProblems cc rc ps).1, 0 < x.2 := by
  induction ps with
  | nil =>
    intro cc rc h
    simpa [procProblems] using h
  | cons p ps ih =>
    intro cc rc h
    simp only [procProblems]
    exact ih _ _ (procProblemTags_pos p.tags _ _ _ h)

/-! ### Band analysis lemmas -/

theorem catCountOf_nil (k : String) : catCountOf [] k = 0 := rfl

theorem catCountOf_cons (a : String) (s : CategoryStat) (l : List (String × CategoryStat))
    (k : String) :
    catCountOf ((a, s) :: l) k = (if a = k then s.count else 0) + catCountOf l k := by
  by_cases h : a = k <;> simp [catCountOf, List.filter_cons, h]

theorem catCountOf_map (l : List (String × Nat)) (total : Nat) (k : String) :
    catCountOf (l.map (fun x => (x.1, { count := x.2, frequency := roundFreq x.2 total })))
      k = countOf l k := by
  induction l with
  | nil => rfl
  | cons x xs ih =>
    obtain ⟨a, v⟩ := x
    rw [List.map_cons, catCountOf_cons, countOf_cons, ih]

theorem countOf_insertionSort (l : List (String × Nat)) (k : String) :
    countOf (List.insertionSort countGE l) k = countOf l k :=
  countOf_perm (List.perm_insertionSort countGE l) k

theorem analyze_band_eq_zero {problems : List Problem} {lo hi : Int}
    (h : (problems.filter (inBand lo hi)).length = 0) :
    analyze_band problems lo hi = { total := 0, categories := [], raw_tags := none } := by
  simp [analyze_band, h]

theorem analyze_band_eq_pos {problems : List Problem} {lo hi : Int}
    (h : (problems.filter (inBand lo hi)).length ≠ 0) :
    analyze_band problems lo hi =
      { total := (problems.filter (inBand lo hi)).length
        categories :=
          (List.insertionSort countGE
              (procProblems [] [] (problems.filter (inBand lo hi))).1).map
            (fun x => (x.1,
              { count := x.2
                frequency := roundFreq x.2 (problems.filter (inBand lo hi)).length }))
        raw_tags := some (List.insertionSort countGE
          (procProblems [] [] (problems.filter (inBand lo hi))).2) } := by
  simp [analyze_band, h]

theorem analyze_band_catCountOf (problems : List Problem) (lo hi : Int) (k : String) :
    catCountOf (analyze_band problems lo hi).categories k
      = ((problems.filter (inBand lo hi)).filter (fun p => touchesTags p.tags k)).length := by
  by_cases h : (problems.filter (inBand lo hi)).length = 0
  · rw [analyze_band_eq_zero h]
    have he : problems.filter (inBand lo hi) = [] := List.length_eq_zero.mp h
    simp [catCountOf_nil, he]
  · rw [analyze_band_eq_pos h]
    show catCountOf ((List.insertionSort countGE _).map _) k = _
    rw [catCountOf_map, countOf_insertionSort, procProblems_cat]
    simp [countOf_nil]

theorem analyze_band_rawCountOf (problems : List Problem) (lo hi : Int) (t : String) :
    rawCountOf (analyze_band problems lo hi) t
      = ((problems.filter (inBand lo hi)).map (fun p => p.tags.count t)).sum := by
  by_cases h : (problems.filter (inBand lo hi)).length = 0
  · rw [analyze_band_eq_zero h]
    have he : problems.filter (inBand lo hi) = [] := List.length_eq_zero.mp h
    simp [rawCountOf, countOf_nil, he]
  · rw [analyze_band_eq_pos h]
    show countOf (List.insertionSort countGE _) t = _
    rw [countOf_insertionSort, procProblems_raw]
    simp [countOf_nil]

theorem analyze_band_total (problems : List Problem) (lo hi : Int) :
    (analyze_band problems lo hi).total = (problems.filter (inBand lo hi)).length := by
  by_cases h : (problems.filter (inBand lo hi)).length = 0
  · rw [analyze_band_eq_zero h, h]
  · rw [analyze_band_eq_pos h]

theorem analyze_band_mem {problems : List Problem} {lo hi : Int} {x : String × CategoryStat}
    (hx : x ∈ (analyze_band problems lo hi).categories) :
    0 < (analyze_band problems lo hi).total ∧
    x.2.count ≤ (analyze_band problems lo hi).total ∧
    x.2.frequency = roundFreq x.2.count (analyze_band problems lo hi).total := by
  by_cases h : (problems.filter (inBand lo hi)).length = 0
  · rw [analyze_band_eq_zero h] at hx
    simp at hx
  · rw [analyze_band_eq_pos h] at hx ⊢
    simp only [List.mem_map] at hx
    obtain ⟨y, hy, rfl⟩ := hx
    have hy2 : y ∈ (procProblems [] [] (problems.filter (inBand lo hi))).1 :=
      (List.mem_insertionSort countGE).mp hy
    have h1 : y.2 ≤ countOf (procProblems [] [] (problems.filter (inBand lo hi))).1 y.1 :=
      mem_le_countOf hy2
    have h2 := procProblems_cat (problems.filter (inBand lo hi)) [] [] y.1
    have h3 := List.length_filter_le (fun p => touchesTags p.tags y.1)
      (problems.filter (inBand lo hi))
    rw [countOf_nil] at h2
    refine ⟨?_, ?_, rfl⟩
    · show 0 < (problems.filter (inBand lo hi)).length
      omega
    · show y.2 ≤ (problems.filter (inBand lo hi)).length
      omega

theorem analyze_band_sorted (problems : List Problem) (lo hi : Int) :
    (analyze_band problems lo hi).categories.Pairwise freqGE := by
  by_cases h : (problems.filter (inBand lo hi)).length = 0
  · rw [analyze_band_eq_zero h]
    exact List.Pairwise.nil
  · rw [analyze_band_eq_pos h]
    refine List.Pairwise.map _ ?_ (List.sorted_insertionSort countGE _)
    intro a b hab
    exact roundFreq_mono hab

/-! ### Helper lemmas for category keys and the roadmap -/

theorem touchesTags_false_of {k : String} (hk : ∀ t, effCat t ≠ some k)
    (tags : List String) : touchesTags tags k = false := by
  induction tags with
  | nil => rfl
  | cons t ts ih =>
    rw [touchesTags_cons, ih]
    have : (effCat t == some k) = false := by
      simpa using hk t
    rw [this]
    rfl

theorem mem_keys_touched {problems : List Problem} {lo hi : Int} {k : String}
    (h : k ∈ (analyze_band problems lo hi).categories.map Prod.fst) :
    ∃ p ∈ problems.filter (inBand lo hi), touchesTags p.tags k = true := by
  by_cases h0 : (problems.filter (inBand lo hi)).length = 0
  · rw [analyze_band_eq_zero h0] at h
    simp at h
  · rw [analyze_band_eq_pos h0] at h
    simp only [List.map_map, List.mem_map, Function.comp] at h
    obtain ⟨y, hy, hk⟩ := h
    have hy2 : y ∈ (procProblems [] [] (problems.filter (inBand lo hi))).1 :=
      (List.mem_insertionSort countGE).mp hy
    have hpos : 0 < y.2 :=
      procProblems_pos (problems.filter (inBand lo hi)) [] [] (by simp) y hy2
    have h1 : y.2 ≤ countOf (procProblems [] [] (problems.filter (inBand lo hi))).1 y.1 :=
      mem_le_countOf hy2
    have h2 := procProblems_cat (problems.filter (inBand lo hi)) [] [] y.1
    rw [countOf_nil] at h2
    have hlen : 0 < ((problems.filter (inBand lo hi)).filter
        (fun p => touchesTags p.tags y.1)).length := by omega
    obtain ⟨p, hp⟩ := List.exists_mem_of_length_pos hlen
    rw [List.mem_filter] at hp
    exact ⟨p, hp.1, by rw [← hk]; exact hp.2⟩

theorem mem_newOrGrowing (prev cur : BandAnalysis) (cat : String) (f g : ℚ) :
    (cat, f, g) ∈ newOrGrowing prev cur ↔
      ∃ s : CategoryStat, (cat, s) ∈ cur.categories ∧ s.frequency = f ∧
        (1 : ℚ)/10 ≤ f ∧ g = f - prevFreq prev cat ∧
        ((3 : ℚ)/100 ≤ g ∨ (prevFreq prev cat < 5/100 ∧ (8 : ℚ)/100 ≤ f)) := by
  simp only [newOrGrowing, topTechs, List.mem_filterMap, List.mem_filter,
    decide_eq_true_eq]
  constructor
  · rintro ⟨a, ⟨hmem, hfreq⟩, hsome⟩
    split at hsome
    · rename_i hcond
      simp only [Option.some.injEq, Prod.mk.injEq] at hsome
      obtain ⟨h1, h2, h3⟩ := hsome
      subst h1
      subst h2
      subst h3
      exact ⟨a.2, hmem, rfl, hfreq, rfl, hcond⟩
    · cases hsome
  · rintro ⟨s, hmem, rfl, hf, rfl, hcond⟩
    refine ⟨(cat, s), ⟨hmem, hf⟩, ?_⟩
    rw [if_pos hcond]

theorem pairwise_take_drop {α : Type} {R : α → α → Prop} {l : List α}
    (h : l.Pairwise R) (n : Nat) :
    ∀ a ∈ l.take n, ∀ b ∈ l.drop n, R a b :=
  (List.pairwise_append.mp (by rwa [List.take_append_drop])).2.2

/-! ### Claim theorems -/

/-- C1: within one band, an item two of whose distinct raw tags normalize to
the same category increments that category's count by exactly 1, and in
general a category's count equals the number of band items touching the
category at least once, never the number of tags. -/
theorem claim_C1_category_dedup (problems : List Problem) (lo hi : Int) (p : Problem)
    (t1 t2 c : String) (h12 : t1 ≠ t2) (h1 : effCat t1 = some c) (h2 : effCat t2 = some c)
    (ht1 : t1 ∈ p.tags) (ht2 : t2 ∈ p.tags) (hlo : lo ≤ p.rating) (hhi : p.rating < hi) :
    catCountOf (analyze_band (problems ++ [p]) lo hi).categories c
        = catCountOf (analyze_band problems lo hi).categories c + 1
    ∧ ∀ (qs : List Problem), catCountOf (analyze_band qs lo hi).categories c
        = ((qs.filter (inBand lo hi)).filter (fun q => touchesTags q.tags c)).length := by
  constructor
  · rw [analyze_band_catCountOf, analyze_band_catCountOf, List.filter_append]
    have hb : inBand lo hi p = true := by simp [inBand, hlo, hhi]
    rw [show List.filter (inBand lo hi) [p] = [p] from by simp [hb]]
    rw [List.filter_append]
    have htouch : touchesTags p.tags c = true := by
      unfold touchesTags
      rw [List.any_eq_true]
      exact ⟨t1, ht1, by simp [h1]⟩
    rw [show List.filter (fun q => touchesTags q.tags c) [p] = [p] from by simp [htouch]]
    rw [List.length_append]
    rfl
  · intro qs
    exact analyze_band_catCountOf qs lo hi c

/-- Witness for C1: adding an item tagged both "flows" and "graph matchings"
to an empty collection raises the "Flows & Matching" count from 0 to 1. -/
theorem claim_C1_witness :
    catCountOf (analyze_band ([] ++ [demoFlows]) 800 1000).categories "Flows & Matching"
      = catCountOf (analyze_band [] 800 1000).categories "Flows & Matching" + 1 :=
  (claim_C1_category_dedup [] 800 1000 demoFlows "flows" "graph matchings"
    "Flows & Matching" (by decide) (by decide) (by decide)
    (by decide) (by decide) (by decide) (by decide)).1

/-- C2: in every band analysis, every category count is at most the band
total, every frequency is the 4-digit rounding of count / total and lies in
[0, 1], and a zero total forces an empty category table. -/
theorem claim_C2_invariants (problems : List Problem) (lo hi : Int) :
    ((analyze_band problems lo hi).total = 0 → (analyze_band problems lo hi).categories = [])
    ∧ ∀ x ∈ (analyze_band problems lo hi).categories,
        x.2.count ≤ (analyze_band problems lo hi).total ∧
        x.2.frequency = roundFreq x.2.count (analyze_band problems lo hi).total ∧
        0 ≤ x.2.frequency ∧ x.2.frequency ≤ 1 := by
  constructor
  · intro h0
    by_cases h : (problems.filter (inBand lo hi)).length = 0
    · rw [analyze_band_eq_zero h]
    · rw [analyze_band_total] at h0
      exact absurd h0 h
  · intro x hx
    obtain ⟨hpos, hle, hfreq⟩ := analyze_band_mem hx
    refine ⟨hle, hfreq, ?_, ?_⟩
    · rw [hfreq]
      exact roundFreq_nonneg _ _
    · rw [hfreq]
      exact roundFreq_le_one hpos hle

/-- Witness for C2: applied to an empty collection, whose band total is 0,
the category table is empty. -/
theorem claim_C2_witness : (analyze_band [] 800 1000).categories = [] :=
  (claim_C2_invariants [] 800 1000).1 (by decide)

/-- C5 counterexample: on an empty band the result has total 0 and an empty
category table, but the raw-tag table is absent (`none`), not present and
empty, because the early return carries no raw-tag key. -/
theorem claim_C5_counterexample :
    (analyze_band [] 800 1000).raw_tags = none ∧
    (analyze_band [] 800 1000).raw_tags ≠ some [] ∧
    (analyze_band [] 800 1000).total = 0 ∧
    (analyze_band [] 800 1000).categories = [] := by
  decide

/-- C5 amended: for a band containing no item's rating, `analyze_band`
returns total 0, an empty category table and no raw-tag table at all, via
the early return (so the frequency division is never executed). -/
theorem claim_C5_empty_band (problems : List Problem) (lo hi : Int)
    (h : ∀ p ∈ problems, ¬(lo ≤ p.rating ∧ p.rating < hi)) :
    analyze_band problems lo hi = { total := 0, categories := [], raw_tags := none } := by
  have hf : problems.filter (inBand lo hi) = [] := by
    rw [List.filter_eq_nil_iff]
    intro p hp
    have hnp := h p hp
    simp only [inBand, Bool.and_eq_true, decide_eq_true_eq]
    omega
  exact analyze_band_eq_zero (by rw [hf]; rfl)

/-- Witness for C5: the empty collection gives the early-return value. -/
theorem claim_C5_witness :
    analyze_band [] 800 1000 = { total := 0, categories := [], raw_tags := none } :=
  claim_C5_empty_band [] 800 1000 (by simp)

/-- C6: tag normalization returns the table category for a mapped tag, the
raw tag itself for an unmapped tag, and the drop signal for the sentinel
"*special"; matching is exact, with no case folding or trimming. -/
theorem claim_C6_normalizer :
    (∀ tag cat, TAG_TO_CATEGORY.lookup tag = some (some cat) →
      tagToCategoryGet tag = some cat)
    ∧ (∀ tag, TAG_TO_CATEGORY.lookup tag = none → tagToCategoryGet tag = some tag)
    ∧ tagToCategoryGet "*special" = none
    ∧ tagToCategoryGet "Math" = some "Math"
    ∧ tagToCategoryGet " math" = some " math"
    ∧ tagToCategoryGet "math " = some "math " := by
  refine ⟨?_, ?_, by decide, by decide, by decide, by decide⟩
  · intro tag cat h
    simp [tagToCategoryGet, h]
  · intro tag h
    simp [tagToCategoryGet, h]

/-- Witness for C6: the mapped tag "dp" normalizes to its table category. -/
theorem claim_C6_witness : tagToCategoryGet "dp" = some "Dynamic Programming" :=
  claim_C6_normalizer.1 "dp" "Dynamic Programming" (by decide)

/-- C7: raw-tag counts are never deduplicated per item: the raw count of a
tag is the total number of its occurrences over all items of the band,
regardless of category overlap. -/
theorem claim_C7_raw_counts (problems : List Problem) (lo hi : Int) (t : String) :
    rawCountOf (analyze_band problems lo hi) t
      = ((problems.filter (inBand lo hi)).map (fun p => p.tags.count t)).sum :=
  analyze_band_rawCountOf problems lo hi t

/-- C3: for a band with predecessor, the displayed new-or-growing list is a
descending-growth sorting of exactly the categories of the band with
frequency at least 0.10 whose growth over the previous band is at least
0.03 or whose previous frequency is below 0.05 while the current one is at
least 0.08, truncated to the top 6 (every dropped entry has growth at most
that of every kept entry). -/
theorem claim_C3_new_or_growing (prev cur : BandAnalysis) :
    roadmapNewGrowing prev cur
        = (List.insertionSort growthGE (newOrGrowing prev cur)).take 6
    ∧ (List.insertionSort growthGE (newOrGrowing prev cur)).Perm (newOrGrowing prev cur)
    ∧ List.Pairwise growthGE (List.insertionSort growthGE (newOrGrowing prev cur))
    ∧ (roadmapNewGrowing prev cur).length ≤ 6
    ∧ (∀ a ∈ roadmapNewGrowing prev cur,
        ∀ b ∈ (List.insertionSort growthGE (newOrGrowing prev cur)).drop 6,
          b.2.2 ≤ a.2.2)
    ∧ ∀ (cat : String) (f g : ℚ), (cat, f, g) ∈ newOrGrowing prev cur ↔
        (∃ s : CategoryStat, (cat, s) ∈ cur.categories ∧ s.frequency = f ∧
          (1 : ℚ)/10 ≤ f ∧ g = f - prevFreq prev cat ∧
          ((3 : ℚ)/100 ≤ g ∨ (prevFreq prev cat < 5/100 ∧ (8 : ℚ)/100 ≤ f))) := by
  refine ⟨rfl, List.perm_insertionSort growthGE _,
    List.sorted_insertionSort growthGE _, ?_, ?_, mem_newOrGrowing prev cur⟩
  · show (List.take 6 _).length ≤ 6
    rw [List.length_take]
    exact min_le_left _ _
  · intro a ha b hb
    exact pairwise_take_drop (List.sorted_insertionSort growthGE _) 6 a ha b hb

/-- Witness for C3: "Graphs", at frequency 0.15 after 0.05, qualifies as
new-or-growing with growth 0.10. -/
theorem claim_C3_witness :
    ("Graphs", (15 : ℚ)/100, (1 : ℚ)/10) ∈ newOrGrowing c3prev c3cur := by
  refine ((claim_C3_new_or_growing c3prev c3cur).2.2.2.2.2 "Graphs"
    ((15 : ℚ)/100) ((1 : ℚ)/10)).mpr ?_
  refine ⟨{ count := 9, frequency := 15/100 }, by simp [c3cur], rfl, by norm_num, ?_, ?_⟩
  · rw [show prevFreq c3prev "Graphs" = 5/100 from by simp [prevFreq, c3prev, List.lookup]]
    norm_num
  · exact Or.inl (by norm_num)

/-- C4 counterexample: with "X" at frequency 0.04 in the previous band and
0.09 in the current one, "X" does not appear in the new-or-growing list at
all, because 0.09 fails the frequency-at-least-0.10 top-technique gate that
the list iterates over. -/
theorem claim_C4_counterexample :
    roadmapNewGrowing prevBandX curBandX9 = [] ∧
    "X" ∉ (roadmapNewGrowing prevBandX curBandX9).map Prod.fst := by
  have h : roadmapNewGrowing prevBandX curBandX9 = [] := by
    norm_num [roadmapNewGrowing, newOrGrowing, topTechs, curBandX9, List.insertionSort]
  rw [h]
  exact ⟨rfl, by simp⟩

/-- C4 amended: with "X" at frequency 0.04 in the previous band, a current
frequency of 0.10 (the least value passing the top-technique gate) puts
"X" into the new-or-growing list, with growth 0.06; in particular this
holds for the concrete scenario bands. -/
theorem claim_C4_growth_heuristic (prev cur : BandAnalysis) (s : CategoryStat)
    (hprev : prevFreq prev "X" = 4/100) (hmem : ("X", s) ∈ cur.categories)
    (hfreq : s.frequency = 1/10) :
    ("X", (1 : ℚ)/10, (6 : ℚ)/100) ∈ newOrGrowing prev cur := by
  rw [mem_newOrGrowing]
  refine ⟨s, hmem, hfreq, le_refl _, by rw [hprev]; norm_num, Or.inl (by norm_num)⟩

/-- Witness for C4: the scenario bands with current frequency 0.10. -/
theorem claim_C4_witness :
    ("X", (1 : ℚ)/10, (6 : ℚ)/100) ∈ newOrGrowing prevBandX curBandX10 :=
  claim_C4_growth_heuristic prevBandX curBandX10 { count := 10, frequency := 1/10 }
    (by simp [prevFreq, prevBandX, List.lookup]) (by simp [curBandX10]) rfl

/-- C8: the first-band roadmap entry is the table's categories with
frequency at least 0.10, in the table's descending-frequency order,
truncated to the first 6; every dropped qualifying category has frequency
at most that of every kept one, so the entry is a top 6 by descending
frequency. -/
theorem claim_C8_first_band (problems : List Problem) (lo hi : Int) :
    roadmapFirstBand (analyze_band problems lo hi)
        = ((analyze_band problems lo hi).categories.filter
            (fun x => decide ((1 : ℚ) / 10 ≤ x.2.frequency))).take 6
    ∧ (∀ x, x ∈ (analyze_band problems lo hi).categories.filter
            (fun x => decide ((1 : ℚ) / 10 ≤ x.2.frequency)) ↔
          x ∈ (analyze_band problems lo hi).categories ∧ (1 : ℚ)/10 ≤ x.2.frequency)
    ∧ List.Pairwise freqGE ((analyze_band problems lo hi).categories.filter
            (fun x => decide ((1 : ℚ) / 10 ≤ x.2.frequency)))
    ∧ (roadmapFirstBand (analyze_band problems lo hi)).length ≤ 6
    ∧ ∀ a ∈ roadmapFirstBand (analyze_band problems lo hi),
        ∀ b ∈ ((analyze_band problems lo hi).categories.filter
            (fun x => decide ((1 : ℚ) / 10 ≤ x.2.frequency))).drop 6,
          b.2.frequency ≤ a.2.frequency := by
  refine ⟨rfl, ?_, ?_, ?_, ?_⟩
  · intro x
    rw [List.mem_filter, decide_eq_true_eq]
  · exact List.Pairwise.filter _ (analyze_band_sorted problems lo hi)
  · show (List.take 6 _).length ≤ 6
    rw [List.length_take]
    exact min_le_left _ _
  · intro a ha b hb
    exact pairwise_take_drop (List.Pairwise.filter _ (analyze_band_sorted problems lo hi))
      6 a ha b hb

/-- Witness for C8: the first-band entry of the spec example scenario is
the take-6 truncation of its frequency filter. -/
theorem claim_C8_witness :
    roadmapFirstBand (analyze_band [demoA, demoB] 800 1000)
      = ((analyze_band [demoA, demoB] 800 1000).categories.filter
          (fun x => decide ((1 : ℚ) / 10 ≤ x.2.frequency))).take 6 :=
  (claim_C8_first_band [demoA, demoB] 800 1000).1

/-- C9: the exporter emits, per band, the key "lo-hi", the label, the band
total, and a techniques table that reproduces the band's category table
exactly, so parsing the exported techniques recovers the same
category-to-(frequency, count) mapping used to build them. -/
theorem claim_C9_export_roundtrip (bands : List ((Int × Int × String) × BandAnalysis)) :
    (export_real_data bands).map (fun e => parseTechniques e.2.techniques)
        = bands.map (fun b => b.2.categories)
    ∧ (export_real_data bands).map Prod.fst
        = bands.map (fun b => bandKey b.1.1 b.1.2.1)
    ∧ (export_real_data bands).map (fun e => e.2.label) = bands.map (fun b => b.1.2.2)
    ∧ (export_real_data bands).map (fun e => e.2.total_problems)
        = bands.map (fun b => b.2.total) := by
  have h1 : ∀ (l : List (String × CategoryStat)),
      parseTechniques (l.map
        (fun y => (y.1, { frequency := y.2.frequency, problem_count := y.2.count }))) = l := by
    intro l
    induction l with
    | nil => rfl
    | cons x xs ih =>
      show (x.1, { count := x.2.count, frequency := x.2.frequency }) ::
          parseTechniques (xs.map _) = x :: xs
      rw [ih]
  refine ⟨?_, ?_, ?_, ?_⟩
  · rw [export_real_data, List.map_map]
    exact List.map_congr_left (fun b _ => h1 b.2.categories)
  · rw [export_real_data, List.map_map]
    rfl
  · rw [export_real_data, List.map_map]
    rfl
  · rw [export_real_data, List.map_map]
    rfl

/-- C10: every occurrence of the sentinel "*special" (and of the empty raw
tag, whose fallback category is falsy) still counts in the raw-tag table,
while neither ever appears as a key of the category table. -/
theorem claim_C10_falsy_tags (problems : List Problem) (lo hi : Int) :
    rawCountOf (analyze_band problems lo hi) "*special"
        = ((problems.filter (inBand lo hi)).map
            (fun p => p.tags.count "*special")).sum
    ∧ rawCountOf (analyze_band problems lo hi) ""
        = ((problems.filter (inBand lo hi)).map (fun p => p.tags.count "")).sum
    ∧ "*special" ∉ (analyze_band problems lo hi).categories.map Prod.fst
    ∧ "" ∉ (analyze_band problems lo hi).categories.map Prod.fst := by
  refine ⟨analyze_band_rawCountOf problems lo hi "*special",
    analyze_band_rawCountOf problems lo hi "", ?_, ?_⟩
  · intro hmem
    obtain ⟨p, hp, ht⟩ := mem_keys_touched hmem
    rw [touchesTags_false_of effCat_ne_special p.tags] at ht
    cases ht
  · intro hmem
    obtain ⟨p, hp, ht⟩ := mem_keys_touched hmem
    rw [touchesTags_false_of effCat_ne_empty p.tags] at ht
    cases ht

/-- Witness for C10: two sentinel occurrences over two band items give raw
count 2, yet "*special" is not a category key. -/
theorem claim_C10_witness :
    rawCountOf (analyze_band specialProblems 800 1000) "*special" = 2 ∧
    "*special" ∉ (analyze_band specialProblems 800 1000).categories.map Prod.fst :=
  ⟨(claim_C10_falsy_tags specialProblems 800 1000).1.trans (by decide),
   (claim_C10_falsy_tags specialProblems 800 1000).2.2.1⟩
